import Mathlib

/-!
Shallow embedding of the session-history persistence subsystem of `app.py`
(class `KanyeChatbot`).  Python strings are modelled as `List Char`; the
on-disk state of the history file is `Option (List Char)` (`none` = the file
does not exist).  The Python string primitives used by the code
(`str.strip`, `str.capitalize`, `str.lower`, `str.split(": ", 1)`, and
text-mode `readlines` with its universal-newline translation) are modelled
character-by-character below; `capitalize` and `lower` use the ASCII case
maps, which cover the only cased constants the program manipulates
(`"user"`/`"assistant"` and their capitalizations).
-/

/-- The whitespace predicate of Python `str.strip()`: the full Unicode
whitespace set CPython strips (`\t\n\v\f\r`, the separators `\x1c`-`\x1f`,
space, `\x85`, `\xa0`, `U+1680`, `U+2000`-`U+200A`, `U+2028`, `U+2029`,
`U+202F`, `U+205F`, `U+3000`). -/
def pyWS (c : Char) : Bool :=
  decide ((0x09 ≤ c.toNat ∧ c.toNat ≤ 0x0d) ∨ (0x1c ≤ c.toNat ∧ c.toNat ≤ 0x1f) ∨
    c.toNat = 0x20 ∨ c.toNat = 0x85 ∨ c.toNat = 0xa0 ∨ c.toNat = 0x1680 ∨
    (0x2000 ≤ c.toNat ∧ c.toNat ≤ 0x200a) ∨ c.toNat = 0x2028 ∨ c.toNat = 0x2029 ∨
    c.toNat = 0x202f ∨ c.toNat = 0x205f ∨ c.toNat = 0x3000)

/-- Python `s.lstrip()`: drop leading whitespace. -/
def lstrip (s : List Char) : List Char := s.dropWhile pyWS

/-- Python `s.rstrip()`: drop trailing whitespace. -/
def rstrip (s : List Char) : List Char := (s.reverse.dropWhile pyWS).reverse

/-- Python `s.strip()`: drop whitespace at both ends. -/
def pyStrip (s : List Char) : List Char := rstrip (lstrip s)

/-- Python `s.capitalize()`: first character upper-cased, the rest lower-cased. -/
def pyCapitalize : List Char → List Char
  | [] => []
  | c :: rest => c.toUpper :: rest.map Char.toLower

/-- Python `s.lower()`. -/
def pyLower (s : List Char) : List Char := s.map Char.toLower

/-- The separator `": "` used by `line.strip().split(": ", 1)` in
`load_chat_history` and written between role and content by
`save_chat_history`. -/
def SEP : List Char := [':', ' ']

/-- Python `s.split(sep, 1)` restricted to the information the program uses:
`some (before, after)` splits `s` at the first occurrence of `sep`; `none`
means `sep` does not occur, in which case the tuple unpacking
`role, content = ...` in `load_chat_history` raises `ValueError`. -/
def splitFirstSep (sep : List Char) : List Char → Option (List Char × List Char)
  | [] => none
  | c :: rest =>
    if sep.isPrefixOf (c :: rest) then some ([], (c :: rest).drop sep.length)
    else
      match splitFirstSep sep rest with
      | none => none
      | some (a, b) => some (c :: a, b)

/-- Splitting an (already newline-translated) character stream at `'\n'`. -/
def splitLF : List Char → List (List Char)
  | [] => [[]]
  | c :: rest =>
    if c = '\n' then [] :: splitLF rest
    else
      match splitLF rest with
      | [] => [[c]]
      | l :: ls => (c :: l) :: ls

/-- The universal-newline translation performed by Python text-mode reading
(`open(..., 'r')` with default `newline=None`): each `"\r\n"` pair and each
lone `"\r"` becomes `"\n"` before the stream reaches `readlines`. -/
def translateNewlines : List Char → List Char
  | [] => []
  | '\r' :: '\n' :: rest => '\n' :: translateNewlines rest
  | '\r' :: rest => '\n' :: translateNewlines rest
  | c :: rest => c :: translateNewlines rest

/-- The lines `f.readlines()` yields for raw file contents `s`: universal
newline translation followed by splitting at `'\n'`.  The per-line `strip`
of `load_chat_history` sees exactly these segments (readlines keeps each
`'\n'` terminator, which the `strip` removes; the one extra empty segment
produced here for a trailing newline is discarded by the
`if line.strip():` guard). -/
def splitLines (s : List Char) : List (List Char) :=
  splitLF (translateNewlines s)

/-- One chat message: the Python dict `{"role": ..., "content": ...}`. -/
structure Turn where
  role : List Char
  content : List Char
deriving DecidableEq

/-- The constant `INITIAL_MESSAGE` of `app.py`. -/
def INITIAL_MESSAGE : List Char :=
  ("What\x27s good? It\x27s Ye. What do you wanna know?").data

/-- One iteration of the parsing loop of `load_chat_history`: a line is
skipped when it strips to nothing (`if line.strip():`) or when
`line.strip().split(": ", 1)` cannot be unpacked into two parts
(`except ValueError: continue`); otherwise the role is lower-cased and the
remainder kept verbatim as content. -/
def parseLine (line : List Char) : Option Turn :=
  let s := pyStrip line
  if s = [] then none
  else
    match splitFirstSep SEP s with
    | none => none
    | some (r, c) => some ⟨pyLower r, c⟩

/-- The turns parsed out of the raw contents of an existing history file. -/
def fileTurns (s : List Char) : List Turn :=
  (splitLines s).filterMap parseLine

/-- `KanyeChatbot.load_chat_history`: when the history file does not exist
the list `[{"role": "assistant", "content": INITIAL_MESSAGE}]` is returned;
when it exists, `messages` is reset to `[]` and rebuilt from the parseable
lines only. -/
def load_chat_history : Option (List Char) → List Turn
  | none => [⟨("assistant").data, INITIAL_MESSAGE⟩]
  | some content => (splitLines content).filterMap parseLine

/-- The line `f"{message['role'].capitalize()}: {message['content']}\n\n"`
written by `save_chat_history` for one message. -/
def serializeTurn (t : Turn) : List Char :=
  pyCapitalize t.role ++ SEP ++ t.content ++ ['\n', '\n']

/-- The full file contents written by `save_chat_history` for a message
list (the file is opened with mode `'w'`, so prior contents are replaced). -/
def serializeLog : List Turn → List Char
  | [] => []
  | t :: ts => serializeTurn t ++ serializeLog ts

/-- The state the persistence layer acts on: the in-memory
`st.session_state.messages` and the on-disk history file. -/
structure AppState where
  messages : List Turn
  file : Option (List Char)
deriving DecidableEq

/-- Outcome of the file write attempted by `save_chat_history`: either the
write succeeds, or some I/O exception is raised, leaving the file in a state
chosen by the environment (the `except` clause only logs it). -/
inductive WriteOutcome where
  | ok : WriteOutcome
  | fail : Option (List Char) → WriteOutcome

/-- `KanyeChatbot.save_chat_history`: serialize `st.session_state.messages`
and write it to the history file, catching (and merely logging) every
exception.  The function is total — no exception escapes to the caller —
and it never touches `messages`. -/
def save_chat_history (st : AppState) (w : WriteOutcome) : AppState :=
  match w with
  | .ok => { st with file := some (serializeLog st.messages) }
  | .fail f => { st with file := f }

/-- `KanyeChatbot.add_message`: append the turn to
`st.session_state.messages`, then persist via `save_chat_history`. -/
def add_message (st : AppState) (role content : List Char) (w : WriteOutcome) : AppState :=
  save_chat_history { st with messages := st.messages ++ [⟨role, content⟩] } w

/-- The fixed fallback reply of `get_response`. -/
def FALLBACK_MESSAGE : List Char :=
  ("Yo, I\x27m having a moment here. Let\x27s try that again later. 🎤").data

/-- `KanyeChatbot.get_response`: the Gemini call either produces text or
raises; the `except` clause substitutes the fixed fallback string. -/
def get_response (outcome : Except (List Char) (List Char)) : List Char :=
  match outcome with
  | .ok text => text
  | .error _ => FALLBACK_MESSAGE

/-- `KanyeChatbot.get_chat_id`: the digest of the cached session seed.  The
hash (`hashlib.md5(...).hexdigest()`) is an external library call, modelled
as an explicit function argument; `get_chat_id` itself is a pure
application of it to the cached `st.session_state['session_id']`. -/
def get_chat_id (hash : List Char → List Char) (session_id : List Char) : List Char :=
  hash session_id

/-- The file name `f"chat_history_{token}.txt"` as a function of the token. -/
def history_file_of_token (token : List Char) : List Char :=
  ("chat_history_").data ++ (token ++ (".txt").data)

/-- `self.history_file = f"chat_history_{self.get_chat_id()}.txt"` from
`KanyeChatbot.__init__`. -/
def history_file (hash : List Char → List Char) (session_id : List Char) : List Char :=
  history_file_of_token (get_chat_id hash session_id)

/-- Role strings actually produced by the program (`add_message` is only
ever called with `"user"` and `"assistant"`; the spec data model makes the
role this two-value enum). -/
def goodRole (r : List Char) : Prop :=
  r = ("user").data ∨ r = ("assistant").data

instance goodRole.decidable (r : List Char) : Decidable (goodRole r) :=
  decidable_of_iff (r = ("user").data ∨ r = ("assistant").data) Iff.rfl

/-- The body of a serialized line, before its `"\n\n"` terminator. -/
def lineBody (t : Turn) : List Char :=
  pyCapitalize t.role ++ SEP ++ t.content

/-- The turns contributed by each serialized log entry, in order: the value
`load_chat_history` recovers from `serializeLog`.  Each turn contributes the
parseable lines of its serialized body up to and including the first of its
two terminating `'\n'` characters (the second produces an empty segment the
parse loop skips). -/
def parsedTurns : List Turn → List Turn
  | [] => []
  | t :: ts => (splitLines (lineBody t ++ ['\n'])).filterMap parseLine ++ parsedTurns ts

/-! ### Basic facts about the string primitives -/

lemma splitLF_ne_nil (s : List Char) : splitLF s ≠ [] := by
  induction s with
  | nil => simp [splitLF]
  | cons c rest ih =>
    simp only [splitLF]
    split
    · simp
    · split <;> simp

lemma splitLF_cons_newline (rest : List Char) :
    splitLF ('\n' :: rest) = [] :: splitLF rest := by
  simp [splitLF]

lemma splitLF_cons_of_ne {c : Char} (h : c ≠ '\n') {rest l : List Char}
    {ls : List (List Char)} (hr : splitLF rest = l :: ls) :
    splitLF (c :: rest) = (c :: l) :: ls := by
  simp [splitLF, h, hr]

/-- A `'\n'` terminates the current line: the segments of `a ++ '\n' :: b`
are the segments of `a` followed by those of `b`. -/
lemma splitLF_append (a b : List Char) :
    splitLF (a ++ '\n' :: b) = splitLF a ++ splitLF b := by
  induction a with
  | nil => simp [splitLF]
  | cons c a ih =>
    by_cases hc : c = '\n'
    · subst hc
      rw [List.cons_append, splitLF_cons_newline, splitLF_cons_newline, ih,
        List.cons_append]
    · obtain ⟨l, ls, hl⟩ := List.exists_cons_of_ne_nil (splitLF_ne_nil a)
      have hab : splitLF (a ++ '\n' :: b) = l :: (ls ++ splitLF b) := by
        rw [ih, hl, List.cons_append]
      rw [List.cons_append, splitLF_cons_of_ne hc hab, splitLF_cons_of_ne hc hl,
        List.cons_append]

lemma splitLF_of_no_newline {a : List Char} (h : '\n' ∉ a) : splitLF a = [a] := by
  induction a with
  | nil => rfl
  | cons c a ih =>
    have hc : c ≠ '\n' := fun hc => h (hc ▸ List.mem_cons_self c a)
    have ha : '\n' ∉ a := fun ha => h (List.mem_cons_of_mem c ha)
    rw [splitLF_cons_of_ne hc (ih ha)]

lemma translate_nil : translateNewlines [] = [] := rfl

lemma translate_crlf (rest : List Char) :
    translateNewlines ('\r' :: '\n' :: rest) = '\n' :: translateNewlines rest := rfl

lemma translate_cr_cons {d : Char} (h : d ≠ '\n') (rest : List Char) :
    translateNewlines ('\r' :: d :: rest) = '\n' :: translateNewlines (d :: rest) := by
  simp [translateNewlines, h]

lemma translate_cons_of_ne {c : Char} (h : c ≠ '\r') (rest : List Char) :
    translateNewlines (c :: rest) = c :: translateNewlines rest := by
  cases rest with
  | nil => simp [translateNewlines, h]
  | cons d rest2 => simp [translateNewlines, h]

/-- Translation does not touch a carriage-return-free block. -/
lemma translate_append_of_no_cr {a : List Char} (h : '\r' ∉ a) (b : List Char) :
    translateNewlines (a ++ b) = a ++ translateNewlines b := by
  induction a with
  | nil => rfl
  | cons c a ih =>
    have hc : c ≠ '\r' := fun hc => h (hc ▸ List.mem_cons_self c a)
    have ha : '\r' ∉ a := fun ha => h (List.mem_cons_of_mem c ha)
    rw [List.cons_append, translate_cons_of_ne hc, ih ha, List.cons_append]

/-- An untranslated `'\n'` seals everything before it: nothing to its left
can pair across it, so translation splits there. -/
lemma translate_append_newline : ∀ a b : List Char,
    translateNewlines (a ++ '\n' :: b) =
      translateNewlines (a ++ ['\n']) ++ translateNewlines b := by
  intro a
  induction a with
  | nil =>
    intro b
    simp only [List.nil_append]
    rw [translate_cons_of_ne (by decide), translate_cons_of_ne (by decide), translate_nil,
      List.cons_append, List.nil_append]
  | cons c a ih =>
    intro b
    by_cases hc : c = '\r'
    · subst hc
      cases a with
      | nil =>
        simp only [List.cons_append, List.nil_append]
        rw [translate_crlf, translate_crlf, translate_nil, List.cons_append, List.nil_append]
      | cons d a2 =>
        by_cases hd : d = '\n'
        · subst hd
          have h2 := ih b
          simp only [List.cons_append] at h2 ⊢
          rw [translate_cons_of_ne (by decide), translate_cons_of_ne (by decide),
            List.cons_append] at h2
          have step := (List.cons.inj h2).2
          rw [translate_crlf, translate_crlf, step, List.cons_append]
        · have h2 := ih b
          simp only [List.cons_append] at h2 ⊢
          rw [translate_cr_cons hd, translate_cr_cons hd, h2, List.cons_append]
    · have h2 := ih b
      simp only [List.cons_append] at h2 ⊢
      rw [translate_cons_of_ne hc, translate_cons_of_ne hc, h2, List.cons_append]

/-- The translation of contents ending in `'\n'` still ends in `'\n'`. -/
lemma translate_snoc_newline : ∀ x : List Char,
    ∃ y, translateNewlines (x ++ ['\n']) = y ++ ['\n'] := by
  intro x
  induction x with
  | nil => exact ⟨[], rfl⟩
  | cons c x ih =>
    by_cases hc : c = '\r'
    · subst hc
      cases x with
      | nil => exact ⟨[], rfl⟩
      | cons d x2 =>
        by_cases hd : d = '\n'
        · subst hd
          obtain ⟨y, hy⟩ := ih
          refine ⟨y, ?_⟩
          rw [List.cons_append, List.cons_append, translate_crlf]
          rw [List.cons_append, translate_cons_of_ne (by decide)] at hy
          exact hy
        · obtain ⟨y, hy⟩ := ih
          refine ⟨'\n' :: y, ?_⟩
          simp only [List.cons_append] at hy ⊢
          rw [translate_cr_cons hd, hy]
    · obtain ⟨y, hy⟩ := ih
      refine ⟨c :: y, ?_⟩
      rw [List.cons_append, translate_cons_of_ne hc, hy, List.cons_append]

lemma dropWhile_head_false {α} (p : α → Bool) :
    ∀ (l : List α) (x : α) (xs : List α), l.dropWhile p = x :: xs → p x = false := by
  intro l
  induction l with
  | nil => intro x xs h; simp [List.dropWhile] at h
  | cons c l ih =>
    intro x xs h
    rw [List.dropWhile_cons] at h
    by_cases hc : p c
    · rw [if_pos hc] at h; exact ih x xs h
    · rw [if_neg hc] at h
      cases h
      simpa using hc

lemma dropWhile_decomp {α} (p : α → Bool) (l : List α) : ∃ u, l = u ++ l.dropWhile p := by
  induction l with
  | nil => exact ⟨[], rfl⟩
  | cons c l ih =>
    rw [List.dropWhile_cons]
    by_cases hc : p c
    · obtain ⟨u, hu⟩ := ih
      exact ⟨c :: u, by rw [if_pos hc, List.cons_append, ← hu]⟩
    · exact ⟨[], by rw [if_neg hc, List.nil_append]⟩

lemma dropWhile_idem {α} (p : α → Bool) (y : List α) :
    (y.dropWhile p).dropWhile p = y.dropWhile p := by
  cases h : y.dropWhile p with
  | nil => rfl
  | cons x xs =>
    have hx := dropWhile_head_false p y x xs h
    rw [List.dropWhile_cons, if_neg (by simp [hx])]

lemma rstrip_rev {c : List Char} (h : rstrip c = c) :
    c.reverse.dropWhile pyWS = c.reverse := by
  have h2 := congrArg List.reverse h
  rwa [rstrip, List.reverse_reverse] at h2

lemma pyStrip_eq_self {x : List Char} {a b : Char} {y z : List Char}
    (hc : x = a :: y) (hrc : x.reverse = b :: z)
    (ha : pyWS a = false) (hb : pyWS b = false) : pyStrip x = x := by
  have h1 : lstrip x = x := by
    rw [lstrip, hc, List.dropWhile_cons, if_neg (by simp [ha])]
  have h2 : x.reverse.dropWhile pyWS = x.reverse := by
    rw [hrc, List.dropWhile_cons, if_neg (by simp [hb])]
  rw [pyStrip, h1, rstrip, h2, List.reverse_reverse]

/-- The result of `pyStrip` never ends in whitespace. -/
lemma pyStrip_no_trailing (l : List Char) :
    (pyStrip l).reverse.dropWhile pyWS = (pyStrip l).reverse := by
  rw [pyStrip, rstrip, List.reverse_reverse]
  exact dropWhile_idem pyWS (lstrip l).reverse

lemma isPrefixOf_self_append : ∀ p u : List Char, p.isPrefixOf (p ++ u) = true := by
  intro p
  induction p with
  | nil => intro u; simp
  | cons a p ih => intro u; simp [List.isPrefixOf_cons₂, ih u]

lemma isPrefixOf_decomp : ∀ p s : List Char, p.isPrefixOf s = true → ∃ u, s = p ++ u := by
  intro p
  induction p with
  | nil => intro s _; exact ⟨s, rfl⟩
  | cons a p ih =>
    intro s hp
    cases s with
    | nil => simp at hp
    | cons b bs =>
      rw [List.isPrefixOf_cons₂, Bool.and_eq_true, beq_iff_eq] at hp
      obtain ⟨u, hu⟩ := ih bs hp.2
      exact ⟨u, by rw [hp.1, List.cons_append, ← hu]⟩

/-- Inversion: a successful split decomposes the string at the separator. -/
lemma splitFirstSep_eq (sep : List Char) :
    ∀ (s a b : List Char), splitFirstSep sep s = some (a, b) → s = a ++ sep ++ b := by
  intro s
  induction s with
  | nil => intro a b h; simp [splitFirstSep] at h
  | cons c rest ih =>
    intro a b h
    rw [splitFirstSep] at h
    by_cases hp : sep.isPrefixOf (c :: rest) = true
    · rw [if_pos hp] at h
      obtain ⟨u, hu⟩ := isPrefixOf_decomp sep (c :: rest) hp
      cases h
      rw [hu, List.nil_append, List.drop_left]
    · rw [if_neg hp] at h
      cases hrec : splitFirstSep sep rest with
      | none => rw [hrec] at h; simp at h
      | some p =>
        obtain ⟨a0, b0⟩ := p
        rw [hrec] at h
        simp only [Option.some.injEq, Prod.mk.injEq] at h
        obtain ⟨ha, hb⟩ := h
        have := ih a0 b0 hrec
        rw [← ha, ← hb, this, List.cons_append, List.cons_append]

/-- Whenever the separator occurs, the split succeeds. -/
lemma splitFirstSep_occ (sep : List Char) (hsep : sep ≠ []) :
    ∀ x y : List Char, splitFirstSep sep (x ++ sep ++ y) ≠ none := by
  intro x
  induction x with
  | nil =>
    intro y
    obtain ⟨c, cs, hc⟩ := List.exists_cons_of_ne_nil hsep
    rw [List.nil_append]
    have hform : sep ++ y = c :: (cs ++ y) := by rw [hc, List.cons_append]
    rw [hform, splitFirstSep, ← hform, if_pos (by rw [hc] at hform ⊢; exact isPrefixOf_self_append _ y)]
    simp
  | cons c x ih =>
    intro y
    have hform : (c :: x) ++ sep ++ y = c :: (x ++ sep ++ y) := by
      simp [List.cons_append]
    rw [hform, splitFirstSep]
    by_cases hp : sep.isPrefixOf (c :: (x ++ sep ++ y)) = true
    · rw [if_pos hp]; simp
    · rw [if_neg hp]
      cases hrec : splitFirstSep sep (x ++ sep ++ y) with
      | none => exact absurd hrec (ih y)
      | some p => obtain ⟨a, b⟩ := p; simp

/-- Absence of the separator is inherited by every contiguous infix. -/
lemma noSep_infix {sep : List Char} (hsep : sep ≠ []) (u s v : List Char)
    (h : splitFirstSep sep (u ++ s ++ v) = none) : splitFirstSep sep s = none := by
  cases hs : splitFirstSep sep s with
  | none => rfl
  | some p =>
    obtain ⟨a, b⟩ := p
    have heq := splitFirstSep_eq sep s a b hs
    exfalso
    apply splitFirstSep_occ sep hsep (u ++ a) (b ++ v)
    have harr : (u ++ a) ++ sep ++ (b ++ v) = u ++ s ++ v := by
      rw [heq]; simp [List.append_assoc]
    rw [harr]; exact h

/-- Every string is a whitespace padding around its `pyStrip`. -/
lemma pyStrip_infix_decomp (l : List Char) : ∃ u v, l = u ++ pyStrip l ++ v := by
  obtain ⟨u, hu⟩ := dropWhile_decomp pyWS l
  obtain ⟨w, hw⟩ := dropWhile_decomp pyWS (lstrip l).reverse
  refine ⟨u, w.reverse, ?_⟩
  have h2 := congrArg List.reverse hw
  rw [List.reverse_reverse, List.reverse_append] at h2
  have h3 : lstrip l = pyStrip l ++ w.reverse := by
    rw [pyStrip, rstrip] at *
    exact h2
  rw [List.append_assoc, ← h3]
  exact hu

/-- A line in which `": "` does not occur is skipped by the parsing loop. -/
lemma parseLine_none_of_noSep {bad : List Char}
    (h : splitFirstSep SEP bad = none) : parseLine bad = none := by
  obtain ⟨u, v, huv⟩ := pyStrip_infix_decomp bad
  have h2 : splitFirstSep SEP (pyStrip bad) = none :=
    noSep_infix (by simp [SEP]) u (pyStrip bad) v (huv ▸ h)
  by_cases he : pyStrip bad = [] <;> simp [parseLine, he, h2]

/-- Lines produced by the splitter contain no `'\n'`. -/
lemma mem_splitLF_no_newline : ∀ x ℓ : List Char, ℓ ∈ splitLF x → '\n' ∉ ℓ := by
  intro x
  induction x with
  | nil =>
    intro ℓ hm
    rw [show splitLF [] = [[]] from rfl, List.mem_singleton] at hm
    simp [hm]
  | cons c rest ih =>
    intro ℓ hm
    by_cases hc : c = '\n'
    · subst hc
      rw [splitLF_cons_newline] at hm
      rcases List.mem_cons.mp hm with h | h
      · simp [h]
      · exact ih ℓ h
    · obtain ⟨l, ls, hl⟩ := List.exists_cons_of_ne_nil (splitLF_ne_nil rest)
      rw [splitLF_cons_of_ne hc hl] at hm
      rcases List.mem_cons.mp hm with h | h
      · subst h
        intro hmem
        rcases List.mem_cons.mp hmem with h2 | h2
        · exact hc h2.symm
        · exact ih l (by rw [hl]; exact List.mem_cons_self l ls) h2
      · exact ih ℓ (by rw [hl]; exact List.mem_cons_of_mem l h)

/-- The first line `readlines` yields is a literal initial block of the raw
contents (translation only rewrites newline characters, which cannot occur
inside a line). -/
lemma splitLines_head_of_eq : ∀ (s l : List Char) (ls : List (List Char)),
    splitLines s = l :: ls → ∃ v, s = l ++ v := by
  intro s
  induction s with
  | nil =>
    intro l ls h
    rw [show splitLines [] = [[]] from rfl] at h
    exact ⟨[], by rw [(List.cons.inj h.symm).1]; rfl⟩
  | cons c rest ih =>
    intro l ls h
    by_cases hc : c = '\r'
    · subst hc
      cases rest with
      | nil =>
        rw [show splitLines ['\r'] = [[], []] from rfl] at h
        exact ⟨['\r'], by rw [(List.cons.inj h.symm).1]; rfl⟩
      | cons d rest2 =>
        by_cases hd : d = '\n'
        · subst hd
          rw [show splitLines ('\r' :: '\n' :: rest2) =
              [] :: splitLines rest2 from by
                rw [splitLines, translate_crlf, splitLF_cons_newline]; rfl] at h
          exact ⟨'\r' :: '\n' :: rest2, by rw [(List.cons.inj h.symm).1]; rfl⟩
        · rw [show splitLines ('\r' :: d :: rest2) =
              [] :: splitLines (d :: rest2) from by
                rw [splitLines, translate_cr_cons hd, splitLF_cons_newline]; rfl] at h
          exact ⟨'\r' :: d :: rest2, by rw [(List.cons.inj h.symm).1]; rfl⟩
    · by_cases hn : c = '\n'
      · subst hn
        exact ⟨'\n' :: rest, by
          rw [show splitLines ('\n' :: rest) = [] :: splitLines rest from by
            rw [splitLines, translate_cons_of_ne hc, splitLF_cons_newline]; rfl] at h
          rw [(List.cons.inj h.symm).1]; rfl⟩
      · obtain ⟨l0, ls0, hl0⟩ := List.exists_cons_of_ne_nil
          (splitLF_ne_nil (translateNewlines rest))
        rw [show splitLines (c :: rest) = (c :: l0) :: ls0 from by
          rw [splitLines, translate_cons_of_ne hc, splitLF_cons_of_ne hn hl0]] at h
        obtain ⟨v, hv⟩ := ih l0 ls0 hl0
        refine ⟨v, ?_⟩
        rw [(List.cons.inj h.symm).1, List.cons_append, ← hv]

/-- Every line `readlines` yields is a contiguous block of the raw
contents. -/
lemma mem_splitLines_infix : ∀ s ℓ : List Char,
    ℓ ∈ splitLines s → ∃ u v, s = u ++ ℓ ++ v := by
  intro s
  induction s with
  | nil =>
    intro ℓ hm
    rw [show splitLines [] = [[]] from rfl, List.mem_singleton] at hm
    exact ⟨[], [], by simp [hm]⟩
  | cons c rest ih =>
    intro ℓ hm
    by_cases hc : c = '\r'
    · subst hc
      cases rest with
      | nil =>
        rw [show splitLines ['\r'] = [[], []] from rfl] at hm
        have : ℓ = [] := by rcases List.mem_cons.mp hm with h | h
                            · exact h
                            · simpa using h
        exact ⟨[], ['\r'], by simp [this]⟩
      | cons d rest2 =>
        by_cases hd : d = '\n'
        · subst hd
          rw [show splitLines ('\r' :: '\n' :: rest2) =
              [] :: splitLines rest2 from by
                rw [splitLines, translate_crlf, splitLF_cons_newline]; rfl] at hm
          rcases List.mem_cons.mp hm with h | h
          · exact ⟨[], '\r' :: '\n' :: rest2, by simp [h]⟩
          · have hm2 : ℓ ∈ splitLines ('\n' :: rest2) := by
              rw [show splitLines ('\n' :: rest2) = [] :: splitLines rest2 from by
                rw [splitLines, translate_cons_of_ne (by decide), splitLF_cons_newline]; rfl]
              exact List.mem_cons_of_mem [] h
            obtain ⟨u, v, huv⟩ := ih ℓ hm2
            exact ⟨'\r' :: u, v, by simp only [List.cons_append]; rw [← huv]⟩
        · rw [show splitLines ('\r' :: d :: rest2) =
              [] :: splitLines (d :: rest2) from by
                rw [splitLines, translate_cr_cons hd, splitLF_cons_newline]; rfl] at hm
          rcases List.mem_cons.mp hm with h | h
          · exact ⟨[], '\r' :: d :: rest2, by simp [h]⟩
          · obtain ⟨u, v, huv⟩ := ih ℓ h
            exact ⟨'\r' :: u, v, by simp only [List.cons_append]; rw [← huv]⟩
    · by_cases hn : c = '\n'
      · subst hn
        rw [show splitLines ('\n' :: rest) = [] :: splitLines rest from by
          rw [splitLines, translate_cons_of_ne hc, splitLF_cons_newline]; rfl] at hm
        rcases List.mem_cons.mp hm with h | h
        · exact ⟨[], '\n' :: rest, by simp [h]⟩
        · obtain ⟨u, v, huv⟩ := ih ℓ h
          exact ⟨'\n' :: u, v, by simp only [List.cons_append]; rw [← huv]⟩
      · obtain ⟨l0, ls0, hl0⟩ := List.exists_cons_of_ne_nil
          (splitLF_ne_nil (translateNewlines rest))
        rw [show splitLines (c :: rest) = (c :: l0) :: ls0 from by
          rw [splitLines, translate_cons_of_ne hc, splitLF_cons_of_ne hn hl0]] at hm
        rcases List.mem_cons.mp hm with h | h
        · obtain ⟨v, hv⟩ := splitLines_head_of_eq rest l0 ls0 hl0
          exact ⟨[], v, by rw [h, List.nil_append, List.cons_append, ← hv]⟩
        · have hm2 : ℓ ∈ splitLines rest := by rw [splitLines, hl0]; exact List.mem_cons_of_mem l0 h
          obtain ⟨u, v, huv⟩ := ih ℓ hm2
          exact ⟨c :: u, v, by simp only [List.cons_append]; rw [← huv]⟩

/-- No line read back from `bad ++ "\n"` parses when `": "` does not occur
in `bad`: every such line is a `'\n'`-free contiguous block of `bad`, hence
also free of the separator. -/
lemma parseLine_none_of_mem_snoc {bad ℓ : List Char}
    (hsep : splitFirstSep SEP bad = none) (hm : ℓ ∈ splitLines (bad ++ ['\n'])) :
    parseLine ℓ = none := by
  obtain ⟨u, v, huv⟩ := mem_splitLines_infix (bad ++ ['\n']) ℓ hm
  have hnl : '\n' ∉ ℓ := mem_splitLF_no_newline (translateNewlines (bad ++ ['\n'])) ℓ hm
  rcases List.eq_nil_or_concat v with hv | ⟨v0, vl, hv⟩
  · subst hv
    rw [List.append_nil] at huv
    cases hℓ : ℓ with
    | nil => rfl
    | cons x xs =>
      exfalso
      have hlast : (u ++ ℓ).getLast? = some '\n' := by
        rw [← huv, List.getLast?_concat]
      rw [List.getLast?_append] at hlast
      have hℓne : ℓ ≠ [] := by rw [hℓ]; exact List.cons_ne_nil x xs
      obtain ⟨cl, hcl⟩ := Option.isSome_iff_exists.mp (List.getLast?_isSome.mpr hℓne)
      rw [hcl] at hlast
      have : cl = '\n' := by simpa [Option.or] using hlast
      exact hnl (this ▸ List.mem_of_getLast?_eq_some hcl)
  · rw [List.concat_eq_append] at hv
    subst hv
    have hbad : bad = u ++ ℓ ++ v0 := by
      have h2 := congrArg List.dropLast huv
      rw [List.dropLast_concat, ← List.append_assoc, List.dropLast_concat] at h2
      exact h2
    have hsep2 : splitFirstSep SEP ℓ = none := by
      apply noSep_infix (by simp [SEP]) u ℓ v0
      rw [← hbad]
      exact hsep
    exact parseLine_none_of_noSep hsep2

/-! ### Parsing a serialized line back -/

lemma splitFirstSep_user (c : List Char) :
    splitFirstSep SEP ('U' :: 's' :: 'e' :: 'r' :: ':' :: ' ' :: c) =
      some (['U', 's', 'e', 'r'], c) := by
  simp [splitFirstSep, SEP, List.isPrefixOf_cons₂, List.isPrefixOf]

lemma splitFirstSep_assistant (c : List Char) :
    splitFirstSep SEP
      ('A' :: 's' :: 's' :: 'i' :: 's' :: 't' :: 'a' :: 'n' :: 't' :: ':' :: ' ' :: c) =
      some (['A', 's', 's', 'i', 's', 't', 'a', 'n', 't'], c) := by
  simp [splitFirstSep, SEP, List.isPrefixOf_cons₂, List.isPrefixOf]

lemma lineBody_user {t : Turn} (h : t.role = ("user").data) :
    lineBody t = 'U' :: 's' :: 'e' :: 'r' :: ':' :: ' ' :: t.content := by
  rw [lineBody, h]; rfl

lemma lineBody_assistant {t : Turn} (h : t.role = ("assistant").data) :
    lineBody t =
      'A' :: 's' :: 's' :: 'i' :: 's' :: 't' :: 'a' :: 'n' :: 't' :: ':' :: ' ' :: t.content := by
  rw [lineBody, h]; rfl

lemma pyStrip_cons_snoc {a : Char} {y : List Char} {t : Turn}
    (hb : lineBody t = a :: y) (ha : pyWS a = false)
    (hne : t.content ≠ []) (hs : rstrip t.content = t.content) :
    pyStrip (lineBody t) = lineBody t := by
  have hrev : t.content.reverse ≠ [] := by
    intro h
    exact hne (by rw [← List.reverse_reverse t.content, h]; rfl)
  obtain ⟨b, z, hz⟩ := List.exists_cons_of_ne_nil hrev
  have hb2 : pyWS b = false := by
    have := rstrip_rev hs
    rw [hz] at this
    exact dropWhile_head_false pyWS _ b z this
  have hrb : (lineBody t).reverse = b :: (z ++ (pyCapitalize t.role ++ SEP).reverse) := by
    rw [lineBody, List.reverse_append, hz, List.cons_append]
  exact pyStrip_eq_self hb hrb ha hb2

lemma parseLine_lineBody {t : Turn} (hr : goodRole t.role)
    (hne : t.content ≠ []) (hs : rstrip t.content = t.content) :
    parseLine (lineBody t) = some t := by
  cases hr with
  | inl h =>
    have hb := lineBody_user h
    have hstrip := pyStrip_cons_snoc hb (by decide) hne hs
    simp only [parseLine, hstrip]
    rw [if_neg (by rw [hb]; simp), hb, splitFirstSep_user]
    have : t = ⟨("user").data, t.content⟩ := by
      cases t; simp_all
    rw [this]
    rfl
  | inr h =>
    have hb := lineBody_assistant h
    have hstrip := pyStrip_cons_snoc hb (by decide) hne hs
    simp only [parseLine, hstrip]
    rw [if_neg (by rw [hb]; simp), hb, splitFirstSep_assistant]
    have : t = ⟨("assistant").data, t.content⟩ := by
      cases t; simp_all
    rw [this]
    rfl

lemma no_newline_lineBody {t : Turn} (hr : goodRole t.role) (hnl : '\n' ∉ t.content) :
    '\n' ∉ lineBody t := by
  cases hr with
  | inl h => rw [lineBody_user h]; simp [hnl]
  | inr h => rw [lineBody_assistant h]; simp [hnl]

lemma no_cr_lineBody {t : Turn} (hr : goodRole t.role) (hcr : '\r' ∉ t.content) :
    '\r' ∉ lineBody t := by
  cases hr with
  | inl h => rw [lineBody_user h]; simp [hcr]
  | inr h => rw [lineBody_assistant h]; simp [hcr]

/-! ### Loading what was saved -/

lemma load_some (s : List Char) : load_chat_history (some s) = fileTurns s := rfl

lemma parseLine_nil : parseLine [] = none := rfl

lemma fileTurns_nil : fileTurns [] = [] := rfl

lemma serializeLog_append (a b : List Turn) :
    serializeLog (a ++ b) = serializeLog a ++ serializeLog b := by
  induction a with
  | nil => rfl
  | cons t ts ih => rw [List.cons_append, serializeLog, serializeLog, ih, List.append_assoc]

/-- Splitting at the turn boundaries: parsing a serialized log followed by
arbitrary residual contents parses each entry in turn.  The split happens at
the second of each entry\x27s two terminating `'\n'` characters, so it needs
no assumption on the entries: whatever an entry\x27s content ends with, the
block `lineBody t ++ ['\n']` ends in an untranslated `'\n'`. -/
lemma fileTurns_serializeLog (msgs : List Turn) (r : List Char) :
    fileTurns (serializeLog msgs ++ r) = parsedTurns msgs ++ fileTurns r := by
  induction msgs generalizing r with
  | nil => rw [serializeLog, List.nil_append, parsedTurns, List.nil_append]
  | cons t ts ih =>
    have hform : serializeLog (t :: ts) ++ r =
        lineBody t ++ '\n' :: ('\n' :: (serializeLog ts ++ r)) := by
      rw [serializeLog, serializeTurn, lineBody]
      simp [List.append_assoc]
    have hsplit : splitLines (serializeLog (t :: ts) ++ r) =
        splitLines (lineBody t ++ ['\n']) ++ splitLines (serializeLog ts ++ r) := by
      rw [hform]
      rw [show splitLines (lineBody t ++ '\n' :: ('\n' :: (serializeLog ts ++ r))) =
          splitLF (translateNewlines (lineBody t ++ '\n' :: ('\n' :: (serializeLog ts ++ r))))
          from rfl]
      rw [translate_append_newline, translate_cons_of_ne (by decide), splitLF_append]
      rfl
    rw [fileTurns, hsplit, List.filterMap_append]
    rw [show (splitLines (serializeLog ts ++ r)).filterMap parseLine =
        fileTurns (serializeLog ts ++ r) from rfl, ih r, parsedTurns, List.append_assoc]

lemma parsedTurns_of_good (msgs : List Turn)
    (h : ∀ t ∈ msgs, goodRole t.role ∧ t.content ≠ [] ∧ rstrip t.content = t.content ∧
      '\n' ∉ t.content ∧ '\r' ∉ t.content) :
    parsedTurns msgs = msgs := by
  induction msgs with
  | nil => rfl
  | cons t ts ih =>
    obtain ⟨hr, hne, hs, hnl, hcr⟩ := h t (List.mem_cons_self t ts)
    have hcr2 : '\r' ∉ lineBody t ++ ['\n'] := by
      intro hmem
      rcases List.mem_append.mp hmem with h2 | h2
      · exact no_cr_lineBody hr hcr h2
      · simp at h2
    have htr : translateNewlines (lineBody t ++ ['\n']) = lineBody t ++ ['\n'] := by
      have h3 := translate_append_of_no_cr hcr2 ([] : List Char)
      rwa [List.append_nil, translate_nil, List.append_nil] at h3
    have hlines : splitLines (lineBody t ++ ['\n']) = [lineBody t, []] := by
      rw [splitLines, htr,
        show lineBody t ++ ['\n'] = lineBody t ++ '\n' :: ([] : List Char) from rfl,
        splitLF_append, splitLF_of_no_newline (no_newline_lineBody hr hnl)]
      rfl
    rw [parsedTurns, hlines,
      List.filterMap_cons_some (parseLine_lineBody hr hne hs),
      List.filterMap_cons_none (show parseLine [] = none from rfl), List.filterMap_nil,
      ih (fun u hu => h u (List.mem_cons_of_mem t hu))]
    rfl

/-! ### The claims -/

/-- C1 (counterexample): the round-trip fails on a log satisfying all the
stated hypotheses — the turn `{role: "user", content: ""}` has a lowercase
role, no embedded newline and no line starting with `": "`, yet saving and
reloading it loses the turn: the saved line `"User: "` strips to `"User:"`,
which no longer contains `": "`. -/
theorem line_roundtrip_cex :
    load_chat_history (some (serializeLog [Turn.mk (("user").data) []])) ≠
      [Turn.mk (("user").data) []] := by decide

/-- C1 (amended): the line-delimited round-trip holds for every log whose
turns have the lowercase enum roles and whose content has no embedded
newline character (neither `'\n'` nor `'\r'` — text-mode reading treats a
lone `'\r'` as a line break too), does not start with `": "`, and
additionally is non-empty and free of trailing whitespace (so that the
per-line `strip` of `load_chat_history` leaves the saved line intact).
Leading whitespace in content is harmless — the split at the first `": "`
preserves it — and is not excluded. -/
theorem line_roundtrip_amended (log : List Turn)
    (hrole : ∀ t ∈ log, goodRole t.role)
    (hnl : ∀ t ∈ log, '\n' ∉ t.content)
    (hcr : ∀ t ∈ log, '\r' ∉ t.content)
    (_hstart : ∀ t ∈ log, SEP.isPrefixOf t.content = false)
    (hne : ∀ t ∈ log, t.content ≠ [])
    (hrs : ∀ t ∈ log, rstrip t.content = t.content) :
    load_chat_history (some (serializeLog log)) = log := by
  have h := fileTurns_serializeLog log []
  rw [List.append_nil, fileTurns_nil, List.append_nil] at h
  rw [load_some, h]
  exact parsedTurns_of_good log
    (fun t ht => ⟨hrole t ht, hne t ht, hrs t ht, hnl t ht, hcr t ht⟩)

/-- C1 (witness): the amended round-trip evaluated on `[{user, "hi"}]`. -/
theorem line_roundtrip_amended_witness :
    load_chat_history (some (serializeLog [Turn.mk (("user").data) (("hi").data)])) =
      [Turn.mk (("user").data) (("hi").data)] :=
  line_roundtrip_amended _ (by decide) (by decide) (by decide) (by decide) (by decide)
    (by decide)

/-- C2: `load_chat_history` on a non-existent storage location returns
exactly the single seeded assistant greeting turn. -/
theorem load_absent_seeds_greeting :
    load_chat_history none = [Turn.mk (("assistant").data) INITIAL_MESSAGE] := rfl

/-- C3 (counterexample): the non-emptiness invariant fails on the code — a
history file that exists but is empty makes `load_chat_history` return the
empty log, not the seeded greeting (the code resets `messages = []` inside
the `os.path.exists` branch). -/
theorem load_empty_file_cex :
    load_chat_history (some (("").data)) = [] := rfl

/-- C3 (amended): a load from an absent location yields exactly the single
seeded assistant greeting (hence is non-empty); but a load from an existing
file whose lines are all blank or malformed yields the empty log. -/
theorem load_seed_absent_amended :
    load_chat_history none = [Turn.mk (("assistant").data) INITIAL_MESSAGE] ∧
    ∀ s : List Char, (∀ line ∈ splitLines s, parseLine line = none) →
      load_chat_history (some s) = [] := by
  refine ⟨rfl, fun s h => ?_⟩
  rw [load_some, fileTurns]
  exact List.filterMap_eq_nil_iff.mpr h

/-- C3 (witness): the amended statement evaluated on the file contents
`"garbage"` (one malformed line). -/
theorem load_seed_absent_amended_witness :
    load_chat_history (some (("garbage").data)) = [] :=
  load_seed_absent_amended.2 (("garbage").data) (by decide)

/-- C4: per-line corruption tolerance.  First: the concrete file
`"User: hi\n\ngarbageline\n\nAssistant: yo\n\n"` loads to exactly
`[{user, "hi"}, {assistant, "yo"}]`.  Second, in general: deleting any
single line in which `": "` does not occur from a history file does not
change what `load_chat_history` returns — the malformed line is skipped and
every line before and after it still loads. -/
theorem malformed_line_skipped :
    load_chat_history (some (("User: hi\n\ngarbageline\n\nAssistant: yo\n\n").data)) =
      [Turn.mk (("user").data) (("hi").data), Turn.mk (("assistant").data) (("yo").data)] ∧
    ∀ a b bad : List Char, '\n' ∉ bad → splitFirstSep SEP bad = none →
      load_chat_history (some (a ++ '\n' :: (bad ++ '\n' :: b))) =
        load_chat_history (some (a ++ '\n' :: b)) := by
  constructor
  · decide
  · intro a b bad _hnl hsep
    obtain ⟨A0, hA⟩ := translate_snoc_newline a
    obtain ⟨B0, hB⟩ := translate_snoc_newline bad
    have hBnone : ∀ ℓ ∈ splitLF B0, parseLine ℓ = none := by
      intro ℓ hm
      apply parseLine_none_of_mem_snoc hsep
      rw [splitLines, hB,
        show B0 ++ ['\n'] = B0 ++ '\n' :: ([] : List Char) from rfl, splitLF_append]
      exact List.mem_append_left _ hm
    have hL : translateNewlines (a ++ '\n' :: (bad ++ '\n' :: b)) =
        A0 ++ '\n' :: (B0 ++ '\n' :: translateNewlines b) := by
      rw [translate_append_newline a (bad ++ '\n' :: b), translate_append_newline bad b,
        hA, hB]
      simp [List.append_assoc]
    have hR : translateNewlines (a ++ '\n' :: b) = A0 ++ '\n' :: translateNewlines b := by
      rw [translate_append_newline a b, hA]
      simp [List.append_assoc]
    rw [load_some, load_some, fileTurns, fileTurns, splitLines, splitLines, hL, hR,
      splitLF_append A0 (B0 ++ '\n' :: translateNewlines b), splitLF_append B0,
      splitLF_append A0 (translateNewlines b)]
    rw [List.filterMap_append, List.filterMap_append, List.filterMap_append,
      List.filterMap_eq_nil_iff.mpr hBnone, List.nil_append]

/-- C4 (witness): the skip property evaluated at the line `"garbage"`
between two well-formed lines. -/
theorem malformed_line_skipped_witness :
    load_chat_history
        (some ((("User: hi").data) ++ '\n' :: ((("garbage").data) ++ '\n' :: (("Assistant: yo").data)))) =
      load_chat_history (some ((("User: hi").data) ++ '\n' :: (("Assistant: yo").data))) :=
  malformed_line_skipped.2 (("User: hi").data) (("Assistant: yo").data) (("garbage").data)
    (by decide) (by decide)

/-- C5 (counterexample): appending a turn with empty content to a fresh
session increases the in-memory log, but the turn is *not* reflected in the
next load — the saved line `"User: "` is discarded on parse.  (The in-memory
length+1 part of the claim does hold; it is the reflected-in-next-load part
that fails.) -/
theorem append_reflect_cex :
    ¬ Turn.mk (("user").data) [] ∈
      load_chat_history
        (add_message (AppState.mk [Turn.mk (("assistant").data) INITIAL_MESSAGE] none)
          (("user").data) [] WriteOutcome.ok).file := by decide

/-- C5 (amended): `add_message` always grows the in-memory log by exactly
one, with the new turn at the end, for every state and write outcome; and
when the write succeeds and the appended turn has an enum role and
non-empty content with no embedded newline character (`'\n'` or `'\r'`)
and no trailing whitespace, the appended turn is the last entry of the
next `load_chat_history` from the same location. -/
theorem append_length_and_reflect :
    (∀ (st : AppState) (role content : List Char) (w : WriteOutcome),
        (add_message st role content w).messages = st.messages ++ [Turn.mk role content] ∧
        (add_message st role content w).messages.length = st.messages.length + 1) ∧
    (∀ (st : AppState) (role content : List Char),
        goodRole role → content ≠ [] → rstrip content = content →
        '\n' ∉ content → '\r' ∉ content →
        (load_chat_history (add_message st role content WriteOutcome.ok).file).getLast? =
          some (Turn.mk role content)) := by
  constructor
  · intro st role content w
    cases w <;> simp [add_message, save_chat_history]
  · intro st role content hr hne hs hnl hcr
    have hfile : (add_message st role content WriteOutcome.ok).file =
        some (serializeLog (st.messages ++ [Turn.mk role content])) := rfl
    rw [hfile, load_some, serializeLog_append, fileTurns_serializeLog]
    have h1 : fileTurns (serializeLog [Turn.mk role content]) = [Turn.mk role content] := by
      have h := fileTurns_serializeLog [Turn.mk role content] []
      rw [List.append_nil, fileTurns_nil, List.append_nil] at h
      rw [h]
      refine parsedTurns_of_good _ (fun t ht => ?_)
      rw [List.mem_singleton] at ht
      subst ht
      exact ⟨hr, hne, hs, hnl, hcr⟩
    rw [h1]
    exact List.getLast?_concat _

/-- C5 (witness): the amended statement evaluated on an empty session and
the turn `{user, "hi"}`. -/
theorem append_length_and_reflect_witness :
    (add_message (AppState.mk [] none) (("user").data) (("hi").data) WriteOutcome.ok).messages =
      [] ++ [Turn.mk (("user").data) (("hi").data)] ∧
    (load_chat_history
        (add_message (AppState.mk [] none) (("user").data) (("hi").data) WriteOutcome.ok).file).getLast? =
      some (Turn.mk (("user").data) (("hi").data)) :=
  ⟨(append_length_and_reflect.1 (AppState.mk [] none) (("user").data) (("hi").data)
      WriteOutcome.ok).1,
   append_length_and_reflect.2 (AppState.mk [] none) (("user").data) (("hi").data)
      (Or.inl rfl) (by decide) (by decide) (by decide) (by decide)⟩

/-- C6: the end-to-end scenario — a fresh session loads to the single
greeting; after appending `{user, "who are you"}` and `{assistant, "I'm
Ye."}` with successful writes, reloading from the same location yields
exactly those three turns in order. -/
theorem scenario_three_turns :
    (AppState.mk (load_chat_history none) none).messages =
      [Turn.mk (("assistant").data) INITIAL_MESSAGE] ∧
    load_chat_history
        ((add_message
          (add_message (AppState.mk (load_chat_history none) none)
            (("user").data) (("who are you").data) WriteOutcome.ok)
          (("assistant").data) (("I\x27m Ye.").data) WriteOutcome.ok).file) =
      [Turn.mk (("assistant").data) INITIAL_MESSAGE,
       Turn.mk (("user").data) (("who are you").data),
       Turn.mk (("assistant").data) (("I\x27m Ye.").data)] := by
  exact ⟨rfl, by decide⟩

/-- C7: `save_chat_history` is total (every exception from the write is
caught inside it) and leaves the in-memory session log untouched for every
write outcome, including failures. -/
theorem save_preserves_messages :
    ∀ (st : AppState) (w : WriteOutcome),
      (save_chat_history st w).messages = st.messages := by
  intro st w
  cases w <;> rfl

/-- C7 (witness): evaluation on a failing write. -/
theorem save_preserves_messages_witness :
    (save_chat_history (AppState.mk [Turn.mk (("user").data) (("hi").data)] none)
        (WriteOutcome.fail none)).messages =
      [Turn.mk (("user").data) (("hi").data)] :=
  save_preserves_messages (AppState.mk [Turn.mk (("user").data) (("hi").data)] none)
    (WriteOutcome.fail none)

/-- C8: whenever the response generator raises, `get_response` returns the
fixed fallback string instead of propagating the exception, so every prompt
yields an assistant turn. -/
theorem generation_fallback :
    ∀ e : List Char, get_response (Except.error e) = FALLBACK_MESSAGE := fun _ => rfl

/-- C8 (witness): evaluation on a concrete exception message. -/
theorem generation_fallback_witness :
    get_response (Except.error (("boom").data)) = FALLBACK_MESSAGE :=
  generation_fallback (("boom").data)

/-- C9: with the session seed fixed, the derived storage location is stable
(equal seeds give equal locations); the location is determined by the token
alone (`history_file` factors through `history_file_of_token`); and distinct
tokens always give distinct locations (the token-to-file-name map is
injective). -/
theorem session_identity_stable :
    (∀ (hash : List Char → List Char) (s₁ s₂ : List Char), s₁ = s₂ →
        history_file hash s₁ = history_file hash s₂) ∧
    (∀ (hash : List Char → List Char) (s : List Char),
        history_file hash s = history_file_of_token (get_chat_id hash s)) ∧
    (∀ t₁ t₂ : List Char, history_file_of_token t₁ = history_file_of_token t₂ → t₁ = t₂) := by
  refine ⟨fun hash s₁ s₂ h => by rw [h], fun hash s => rfl, fun t₁ t₂ h => ?_⟩
  rw [history_file_of_token, history_file_of_token] at h
  exact List.append_cancel_right (List.append_cancel_left h)

/-- C9 (witness): stability and injectivity evaluated at concrete seeds and
tokens. -/
theorem session_identity_stable_witness :
    history_file id (("1700000000.123").data) = history_file id (("1700000000.123").data) ∧
    (("token").data : List Char) = ("token").data :=
  ⟨session_identity_stable.1 id (("1700000000.123").data) (("1700000000.123").data) rfl,
   session_identity_stable.2.2 (("token").data) (("token").data) rfl⟩

/-- C10: a turn with empty content serializes to the line `"<Role>: "`
followed by the blank-line terminator, and no turn of any loaded log ever
has empty content (the parsed content sits after the first `": "` of a
stripped line, and a stripped line cannot end in the space of `": "`), so
empty-content turns are absent from every reloaded log. -/
theorem empty_content_dropped :
    (∀ role : List Char, serializeTurn (Turn.mk role []) =
        pyCapitalize role ++ SEP ++ ['\n', '\n']) ∧
    (∀ (s : List Char) (t : Turn), t ∈ load_chat_history (some s) → t.content ≠ []) := by
  constructor
  · intro role
    rw [serializeTurn]
    simp
  · intro s t ht hc
    rw [load_some, fileTurns] at ht
    obtain ⟨line, hline, hparse⟩ := List.mem_filterMap.mp ht
    by_cases he : pyStrip line = []
    · simp [parseLine, he] at hparse
    · cases hsp : splitFirstSep SEP (pyStrip line) with
      | none => simp [parseLine, he, hsp] at hparse
      | some p =>
        obtain ⟨r, c⟩ := p
        have hcont : c = t.content := by
          simp [parseLine, he, hsp] at hparse
          rw [← hparse]
        have heq := splitFirstSep_eq SEP (pyStrip line) r c hsp
        rw [hcont, hc, List.append_nil] at heq
        have htr := pyStrip_no_trailing line
        rw [heq, List.reverse_append,
          show SEP.reverse = ([' ', ':'] : List Char) from rfl,
          show ([' ', ':'] : List Char) ++ r.reverse = ' ' :: ':' :: r.reverse from rfl] at htr
        have hws := dropWhile_head_false pyWS (' ' :: ':' :: r.reverse) ' '
          (':' :: r.reverse) htr
        exact absurd hws (by decide)

/-- C10 (witness): the second component evaluated at the file `"User: hi"`
and its parsed turn. -/
theorem empty_content_dropped_witness :
    (("hi").data : List Char) ≠ [] :=
  empty_content_dropped.2 (("User: hi").data) (Turn.mk (("user").data) (("hi").data)) (by decide)
